import Mathlib

/-!
Verification of `colorednoise.py` (Kasdin & Walter discrete colored-noise
generator and stability converters).

Python floats are modelled as real numbers; Python `pow` on positive bases
with real exponents is `Real.rpow`.  A float NaN (as produced by `np.sqrt`
of a negative argument) is modelled by `Option ℝ` with `none` standing for
NaN, and the NaN-propagating arithmetic of IEEE floats is made explicit.
A converter whose `coeff` local variable stays unbound on the fall-through
path (so that the final `return` raises) is modelled as returning
`Except CnError ℝ` with error value `CnError.unsupportedSlope`.
-/

open Real

namespace Colorednoise

noncomputable section

/-- Error taxonomy of the stability-converter / generator surface. -/
inductive CnError where
  | domainError
  | unsupportedSlope
  | invalidArgument
  deriving DecidableEq

/-- Embedding of `phase_psd_from_qd(qd, b, tau0)`:
`g_b = qd*2.0*pow(2.0*np.pi, b)*pow(tau0, b+1.0)`. -/
def phase_psd_from_qd (qd b tau0 : ℝ) : ℝ :=
  qd * 2 * (2 * π) ^ b * tau0 ^ (b + 1)

/-- Embedding of `frequency_psd_from_qd(qd, b, tau0)`:
`a = b + 2.0; h_a = qd*2.0*pow(2.0*np.pi, a)*pow(tau0, a-1.0)`. -/
def frequency_psd_from_qd (qd b tau0 : ℝ) : ℝ :=
  let a := b + 2
  qd * 2 * (2 * π) ^ a * tau0 ^ (a - 1)

/-- The `coeff` local of `adev_from_qd`: the five-way if/elif chain on `b`.
On the fall-through path `coeff` is never assigned (`none`). -/
def adevCoeff (b tau0 tau : ℝ) : Option ℝ :=
  let f_h := 0.5 / tau0
  if b = 0 then some (3 * f_h / (4 * π ^ 2))
  else if b = -1 then some ((1.038 + 3 * Real.log (2 * π * f_h * tau)) / (4 * π ^ 2))
  else if b = -2 then some 0.5
  else if b = -3 then some (2 * Real.log 2)
  else if b = -4 then some (2 * π ^ 2 / 3)
  else none

/-- Embedding of `adev_from_qd(qd, b, tau0, tau)`.  The final
`return np.sqrt(coeff*g_b*pow(2.0*np.pi,2))` raises when `coeff` was never
assigned; that failure is the `unsupportedSlope` error. -/
def adev_from_qd (qd b tau0 tau : ℝ) : Except CnError ℝ :=
  let g_b := phase_psd_from_qd qd b tau0
  match adevCoeff b tau0 tau with
  | some coeff => .ok (Real.sqrt (coeff * g_b * (2 * π) ^ 2))
  | none => .error .unsupportedSlope

/-- The `coeff` local of `mdev_from_qd`: the five-way if/elif chain on `b`. -/
def mdevCoeff (b tau0 tau : ℝ) : Option ℝ :=
  let f_h := 0.5 / tau0
  if b = 0 then some (3 / (8 * π ^ 2))
  else if b = -1 then some ((24 * Real.log 2 - 9 * Real.log 3) / 8 / π ^ 2)
  else if b = -2 then some 0.25
  else if b = -3 then some (2 * Real.log (3 * (3 : ℝ) ^ ((11 : ℝ) / 16) / 4))
  else if b = -4 then some (11 / 20 * π ^ 2)
  else none

/-- Embedding of `mdev_from_qd(qd, b, tau0, tau)`. -/
def mdev_from_qd (qd b tau0 tau : ℝ) : Except CnError ℝ :=
  let g_b := phase_psd_from_qd qd b tau0
  match mdevCoeff b tau0 tau with
  | some coeff => .ok (Real.sqrt (coeff * g_b * (2 * π) ^ 2))
  | none => .error .unsupportedSlope

/-- A float value: `some x` is the real `x`, `none` is NaN. -/
def NVal : Type := Option ℝ

/-- NaN-propagating addition. -/
def nadd : Option ℝ → Option ℝ → Option ℝ
  | some x, some y => some (x + y)
  | _, _ => none

/-- NaN-propagating multiplication. -/
def nmul : Option ℝ → Option ℝ → Option ℝ
  | some x, some y => some (x * y)
  | _, _ => none

/-- Model of `np.sqrt`: NaN (with only a warning, no exception) on a negative input. -/
def npSqrt (x : ℝ) : Option ℝ :=
  if 0 ≤ x then some (Real.sqrt x) else none

/-- The local `mhb = -b/2.0` from `noiseGen`. -/
def mhb (b : ℝ) : ℝ := -b / 2

/-- The `hfb` buffer right after `hfb[0] = 1.0; hfb[1:nr] = (mhb+indices)/(indices+1.0)`
on top of `np.zeros(nr*2)`, before the `multiply.accumulate`. -/
def hfbInit (nr : ℕ) (b : ℝ) (i : ℕ) : ℝ :=
  if i = 0 then 1
  else if i < nr then (mhb b + ((i - 1 : ℕ) : ℝ)) / (((i - 1 : ℕ) : ℝ) + 1)
  else 0

/-- The `hfb` buffer after `hfb[:nr] = np.multiply.accumulate(hfb[:nr])`:
a running product over the first `nr` entries, the tail untouched. -/
def hfbVal (nr : ℕ) (b : ℝ) (i : ℕ) : ℝ :=
  if i < nr then ∏ t ∈ Finset.range (i + 1), hfbInit nr b t
  else hfbInit nr b i

/-- The full coefficient buffer of length `2*nr` as a list. -/
def hfbList (nr : ℕ) (b : ℝ) : List ℝ :=
  (List.range (2 * nr)).map (hfbVal nr b)

/-- The composite `np.fft.irfft(np.fft.rfft(w)*np.fft.rfft(h))` for real length-`n` inputs is
the circular convolution `y[k] = Σ_i w[i] * h[(k-i) mod n]`, here with the
NaN-propagating float operations. -/
def circConv (n : ℕ) (w h : ℕ → Option ℝ) (k : ℕ) : Option ℝ :=
  (List.range n).foldr (fun i acc => nadd (nmul (w i) (h ((k + n - i) % n))) acc) (some 0)

/-- Embedding of `noiseGen(nr, Qd, b)`.  The white-noise draws are supplied
as an oracle `z` of standard normal deviates; `np.random.normal(0, sigma, nr)`
is `sigma * z i` (NaN `sigma` propagates, `np.random.normal` does not raise on
a NaN scale).  The body has no failure path, hence always `.ok`. -/
def noiseGen (nr : ℕ) (Qd b : ℝ) (z : ℕ → ℝ) : Except CnError (List (Option ℝ)) :=
  let sigma := npSqrt Qd
  let wfb : ℕ → Option ℝ := fun i => if i < nr then nmul sigma (some (z i)) else some 0
  let hfb : ℕ → Option ℝ := fun i => some (hfbVal nr b i)
  .ok ((List.range nr).map (circConv (2 * nr) wfb hfb))

end

/-- C3: `phase_psd_from_qd` returns exactly `Qd * 2 * (2π)^b * tau0^(b+1)`,
and in the degenerate case `b = 0` it returns exactly `Qd * 2 * tau0`. -/
theorem phase_psd_formula (qd b tau0 : ℝ) (htau0 : 0 < tau0) :
    phase_psd_from_qd qd b tau0 = qd * 2 * (2 * π) ^ b * tau0 ^ (b + 1) ∧
    phase_psd_from_qd qd 0 tau0 = qd * 2 * tau0 := by
  constructor
  · rfl
  · unfold phase_psd_from_qd
    rw [Real.rpow_zero]
    norm_num [Real.rpow_one]

/-- Witness for C3 at `qd = 1`, `b = 0`, `tau0 = 1`. -/
theorem phase_psd_formula_witness :
    phase_psd_from_qd 1 0 1 = 1 * 2 * (2 * π) ^ (0 : ℝ) * (1 : ℝ) ^ ((0 : ℝ) + 1) ∧
    phase_psd_from_qd 1 0 1 = 1 * 2 * 1 :=
  phase_psd_formula 1 0 1 (by norm_num)

/-- C1: on each of the five supported slopes, `adev_from_qd` returns
`sqrt(coeff * g_b * (2π)^2)` with `g_b = phase_psd_from_qd qd b tau0`,
`f_h = 1/(2*tau0)`, and `coeff` given by the enumerated table. -/
theorem adev_table (qd tau0 tau : ℝ) (htau0 : 0 < tau0) (htau : 0 < tau) :
    adev_from_qd qd 0 tau0 tau =
      .ok (Real.sqrt (3 * (1 / (2 * tau0)) / (4 * π ^ 2) *
        phase_psd_from_qd qd 0 tau0 * (2 * π) ^ 2)) ∧
    adev_from_qd qd (-1) tau0 tau =
      .ok (Real.sqrt ((1.038 + 3 * Real.log (2 * π * (1 / (2 * tau0)) * tau)) / (4 * π ^ 2) *
        phase_psd_from_qd qd (-1) tau0 * (2 * π) ^ 2)) ∧
    adev_from_qd qd (-2) tau0 tau =
      .ok (Real.sqrt (0.5 * phase_psd_from_qd qd (-2) tau0 * (2 * π) ^ 2)) ∧
    adev_from_qd qd (-3) tau0 tau =
      .ok (Real.sqrt (2 * Real.log 2 * phase_psd_from_qd qd (-3) tau0 * (2 * π) ^ 2)) ∧
    adev_from_qd qd (-4) tau0 tau =
      .ok (Real.sqrt (2 * π ^ 2 / 3 * phase_psd_from_qd qd (-4) tau0 * (2 * π) ^ 2)) := by
  refine ⟨?_, ?_, ?_, ?_, ?_⟩ <;>
    · norm_num [adev_from_qd, adevCoeff]
      try ring_nf

/-- Witness for C1 at `qd = 1`, `tau0 = 1`, `tau = 1`. -/
theorem adev_table_witness :
    adev_from_qd 1 0 1 1 =
      .ok (Real.sqrt (3 * (1 / (2 * 1)) / (4 * π ^ 2) *
        phase_psd_from_qd 1 0 1 * (2 * π) ^ 2)) :=
  (adev_table 1 1 1 (by norm_num) (by norm_num)).1

/-- C2: on each of the five supported slopes, `mdev_from_qd` returns
`sqrt(coeff * g_b * (2π)^2)` with `g_b = phase_psd_from_qd qd b tau0`
and `coeff` given by the enumerated table. -/
theorem mdev_table (qd tau0 tau : ℝ) (htau0 : 0 < tau0) (htau : 0 < tau) :
    mdev_from_qd qd 0 tau0 tau =
      .ok (Real.sqrt (3 / (8 * π ^ 2) *
        phase_psd_from_qd qd 0 tau0 * (2 * π) ^ 2)) ∧
    mdev_from_qd qd (-1) tau0 tau =
      .ok (Real.sqrt ((24 * Real.log 2 - 9 * Real.log 3) / (8 * π ^ 2) *
        phase_psd_from_qd qd (-1) tau0 * (2 * π) ^ 2)) ∧
    mdev_from_qd qd (-2) tau0 tau =
      .ok (Real.sqrt (0.25 * phase_psd_from_qd qd (-2) tau0 * (2 * π) ^ 2)) ∧
    mdev_from_qd qd (-3) tau0 tau =
      .ok (Real.sqrt (2 * Real.log (3 * (3 : ℝ) ^ ((11 : ℝ) / 16) / 4) *
        phase_psd_from_qd qd (-3) tau0 * (2 * π) ^ 2)) ∧
    mdev_from_qd qd (-4) tau0 tau =
      .ok (Real.sqrt (11 * π ^ 2 / 20 *
        phase_psd_from_qd qd (-4) tau0 * (2 * π) ^ 2)) := by
  refine ⟨?_, ?_, ?_, ?_, ?_⟩ <;>
    · norm_num [mdev_from_qd, mdevCoeff]
      try ring_nf

/-- Witness for C2 at `qd = 1`, `tau0 = 1`, `tau = 1`. -/
theorem mdev_table_witness :
    mdev_from_qd 1 0 1 1 =
      .ok (Real.sqrt (3 / (8 * π ^ 2) *
        phase_psd_from_qd 1 0 1 * (2 * π) ^ 2)) :=
  (mdev_table 1 1 1 (by norm_num) (by norm_num)).1

/-- C4: `frequency_psd_from_qd` returns `Qd * 2 * (2π)^a * tau0^(a-1)` with
`a = b + 2`, and consequently equals `(2π)^2 * phase_psd_from_qd` everywhere. -/
theorem frequency_psd_relation (qd b tau0 : ℝ) (htau0 : 0 < tau0) :
    frequency_psd_from_qd qd b tau0 = qd * 2 * (2 * π) ^ (b + 2) * tau0 ^ (b + 2 - 1) ∧
    frequency_psd_from_qd qd b tau0 = (2 * π) ^ 2 * phase_psd_from_qd qd b tau0 := by
  refine ⟨rfl, ?_⟩
  show qd * 2 * (2 * π) ^ (b + 2) * tau0 ^ (b + 2 - 1) = _
  unfold phase_psd_from_qd
  have h2 : (2 * π) ^ (b + 2 : ℝ) = (2 * π) ^ b * (2 * π) ^ (2 : ℝ) :=
    Real.rpow_add (by positivity) b 2
  have h3 : (2 * π) ^ (2 : ℝ) = (2 * π) ^ (2 : ℕ) := by
    rw [← Real.rpow_natCast (2 * π) 2]
    norm_num
  have h4 : (b + 2 - 1 : ℝ) = b + 1 := by ring
  rw [h4, h2, h3]
  ring

/-- Witness for C4 at the triple `(1e-22, -2, 1.0)` named by the claim. -/
theorem frequency_psd_relation_witness :
    frequency_psd_from_qd 1e-22 (-2) 1 = (2 * π) ^ 2 * phase_psd_from_qd 1e-22 (-2) 1 :=
  (frequency_psd_relation 1e-22 (-2) 1 (by norm_num)).2

/-- C6: for a slope outside the five enumerated values, both converters
fail with `unsupportedSlope` instead of returning a numeric value
(in the source, the unassigned `coeff` makes the `return` raise). -/
theorem unsupported_slope_error (qd b tau0 tau : ℝ) (htau0 : 0 < tau0) (htau : 0 < tau)
    (hb : b ∉ ({0, -1, -2, -3, -4} : Set ℝ)) :
    adev_from_qd qd b tau0 tau = .error .unsupportedSlope ∧
    mdev_from_qd qd b tau0 tau = .error .unsupportedSlope := by
  simp only [Set.mem_insert_iff, Set.mem_singleton_iff, not_or] at hb
  obtain ⟨h0, h1, h2, h3, h4⟩ := hb
  constructor <;>
    simp [adev_from_qd, adevCoeff, mdev_from_qd, mdevCoeff, h0, h1, h2, h3, h4]

/-- Witness for C6 at the unsupported slope `b = -5`. -/
theorem unsupported_slope_error_witness :
    adev_from_qd 1 (-5) 1 1 = .error .unsupportedSlope ∧
    mdev_from_qd 1 (-5) 1 1 = .error .unsupportedSlope :=
  unsupported_slope_error 1 (-5) 1 1 (by norm_num) (by norm_num)
    (by norm_num [Set.mem_insert_iff, Set.mem_singleton_iff])

/-- C8: `adev_from_qd` is independent of `tau` on the slopes `0, -2, -3, -4`
(every branch except flicker phase), and `mdev_from_qd` is independent of
`tau` on all five supported slopes. -/
theorem tau_independence (qd tau0 tau tau' : ℝ) (htau0 : 0 < tau0)
    (htau : 0 < tau) (htau' : 0 < tau') :
    (∀ b ∈ ({0, -2, -3, -4} : Set ℝ),
      adev_from_qd qd b tau0 tau = adev_from_qd qd b tau0 tau') ∧
    (∀ b ∈ ({0, -1, -2, -3, -4} : Set ℝ),
      mdev_from_qd qd b tau0 tau = mdev_from_qd qd b tau0 tau') := by
  constructor
  · intro b hb
    simp only [Set.mem_insert_iff, Set.mem_singleton_iff] at hb
    rcases hb with rfl | rfl | rfl | rfl <;> norm_num [adev_from_qd, adevCoeff]
  · intro b hb
    rfl

/-- Witness for C8 at `qd = 1`, `tau0 = 1`, `tau = 1`, `tau' = 2`, `b = -2`. -/
theorem tau_independence_witness :
    adev_from_qd 1 (-2) 1 1 = adev_from_qd 1 (-2) 1 2 :=
  (tau_independence 1 1 1 2 (by norm_num) (by norm_num) (by norm_num)).1 (-2)
    (by norm_num [Set.mem_insert_iff, Set.mem_singleton_iff])

/-- C10: the converters are homogeneous in `Qd`: scaling `Qd` by `c ≥ 0`
scales both PSD prefactors by `c` and the Allan-deviation prefactor by
`sqrt c`. -/
theorem qd_homogeneity (c qd b tau0 tau : ℝ) (hc : 0 ≤ c) (hqd : 0 ≤ qd)
    (htau0 : 0 < tau0) (htau : 0 < tau) :
    phase_psd_from_qd (c * qd) b tau0 = c * phase_psd_from_qd qd b tau0 ∧
    frequency_psd_from_qd (c * qd) b tau0 = c * frequency_psd_from_qd qd b tau0 ∧
    (b ∈ ({0, -1, -2, -3, -4} : Set ℝ) →
      adev_from_qd (c * qd) b tau0 tau =
        Except.map (fun r => Real.sqrt c * r) (adev_from_qd qd b tau0 tau)) := by
  refine ⟨by unfold phase_psd_from_qd; ring,
    by unfold frequency_psd_from_qd; ring, ?_⟩
  intro hb
  unfold adev_from_qd
  cases hA : adevCoeff b tau0 tau with
  | none => simp [Except.map]
  | some ca =>
    simp only [Except.map]
    congr 1
    have hphase : phase_psd_from_qd (c * qd) b tau0 = c * phase_psd_from_qd qd b tau0 := by
      unfold phase_psd_from_qd
      ring
    rw [hphase,
      show ca * (c * phase_psd_from_qd qd b tau0) * (2 * π) ^ 2 =
        c * (ca * phase_psd_from_qd qd b tau0 * (2 * π) ^ 2) by ring]
    exact Real.sqrt_mul hc _

/-- Witness for C10 at `c = 4`, `qd = 1`, `b = -2`, `tau0 = 1`, `tau = 1`. -/
theorem qd_homogeneity_witness :
    adev_from_qd (4 * 1) (-2) 1 1 =
      Except.map (fun r => Real.sqrt 4 * r) (adev_from_qd 1 (-2) 1 1) :=
  (qd_homogeneity 4 1 (-2) 1 1 (by norm_num) (by norm_num) (by norm_num)
    (by norm_num)).2.2 (by norm_num [Set.mem_insert_iff, Set.mem_singleton_iff])

/-- The phase-PSD prefactor is non-negative for `Qd ≥ 0`, `tau0 > 0`. -/
lemma phase_psd_nonneg (qd b tau0 : ℝ) (hqd : 0 ≤ qd) (htau0 : 0 < tau0) :
    0 ≤ phase_psd_from_qd qd b tau0 := by
  unfold phase_psd_from_qd
  positivity

/-- Any value the `coeff` chain of `adev_from_qd` assigns is non-negative
when `tau0 > 0` and `tau0 ≤ tau`. -/
lemma adevCoeff_nonneg {b tau0 tau ca : ℝ} (htau0 : 0 < tau0) (htau : tau0 ≤ tau)
    (hca : adevCoeff b tau0 tau = some ca) : 0 ≤ ca := by
  unfold adevCoeff at hca
  split_ifs at hca <;> injection hca with hca <;> subst hca
  · positivity
  · have hratio : (1 : ℝ) ≤ tau / tau0 := (one_le_div htau0).mpr htau
    have hpi : (1 : ℝ) ≤ π := by linarith [Real.pi_gt_three]
    have harg : (1 : ℝ) ≤ 2 * π * (0.5 / tau0) * tau := by
      have hrw : 2 * π * (0.5 / tau0) * tau = π * (tau / tau0) := by ring
      rw [hrw]
      nlinarith
    have hlog : 0 ≤ Real.log (2 * π * (0.5 / tau0) * tau) := Real.log_nonneg harg
    have hden : (0 : ℝ) < 4 * π ^ 2 := by positivity
    apply div_nonneg _ hden.le
    norm_num
    linarith
  · norm_num
  · have := Real.log_nonneg (by norm_num : (1 : ℝ) ≤ 2)
    linarith
  · positivity

/-- The flicker-phase MDEV coefficient numerator `24·ln 2 − 9·ln 3` is non-negative, since `2^24 ≥ 3^9`. -/
lemma log_combination_nonneg : 0 ≤ 24 * Real.log 2 - 9 * Real.log 3 := by
  have h3 : (9 : ℝ) * Real.log 3 = Real.log ((3 : ℝ) ^ (9 : ℕ)) := by
    rw [Real.log_pow]
    norm_num
  have h2 : (24 : ℝ) * Real.log 2 = Real.log ((2 : ℝ) ^ (24 : ℕ)) := by
    rw [Real.log_pow]
    norm_num
  have hle : Real.log ((3 : ℝ) ^ (9 : ℕ)) ≤ Real.log ((2 : ℝ) ^ (24 : ℕ)) :=
    Real.log_le_log (by positivity) (by norm_num)
  linarith [h3, h2, hle]

/-- The flicker-frequency MDEV log argument `3 · 3^(11/16) / 4` is at least one, since `3^27 ≥ 4^16`. -/
lemma mdev_flicker_arg_ge_one : (1 : ℝ) ≤ 3 * (3 : ℝ) ^ ((11 : ℝ) / 16) / 4 := by
  have hx0 : (0 : ℝ) ≤ (3 : ℝ) ^ ((11 : ℝ) / 16) := Real.rpow_nonneg (by norm_num) _
  have hx16 : ((3 : ℝ) ^ ((11 : ℝ) / 16)) ^ (16 : ℕ) = (3 : ℝ) ^ (11 : ℕ) := by
    rw [← Real.rpow_natCast ((3 : ℝ) ^ ((11 : ℝ) / 16)) 16,
      ← Real.rpow_mul (by norm_num : (0 : ℝ) ≤ 3)]
    rw [show ((11 : ℝ) / 16) * ((16 : ℕ) : ℝ) = ((11 : ℕ) : ℝ) by norm_num]
    exact Real.rpow_natCast 3 11
  have hpow : ((4 : ℝ) / 3) ^ (16 : ℕ) ≤ ((3 : ℝ) ^ ((11 : ℝ) / 16)) ^ (16 : ℕ) := by
    rw [hx16]
    norm_num
  have hx : (4 : ℝ) / 3 ≤ (3 : ℝ) ^ ((11 : ℝ) / 16) :=
    (pow_le_pow_iff_left₀ (by norm_num) hx0 (by norm_num)).mp hpow
  linarith

/-- Any value the `coeff` chain of `mdev_from_qd` assigns is non-negative
when `tau0 > 0`. -/
lemma mdevCoeff_nonneg {b tau0 tau cm : ℝ} (htau0 : 0 < tau0)
    (hcm : mdevCoeff b tau0 tau = some cm) : 0 ≤ cm := by
  unfold mdevCoeff at hcm
  split_ifs at hcm <;> injection hcm with hcm <;> subst hcm
  · positivity
  · have hnum := log_combination_nonneg
    have hpi : (0 : ℝ) < π ^ 2 := by positivity
    apply div_nonneg _ hpi.le
    apply div_nonneg _ (by norm_num : (0 : ℝ) ≤ 8)
    linarith
  · norm_num
  · have := Real.log_nonneg mdev_flicker_arg_ge_one
    linarith
  · positivity

/-- On every supported slope the `coeff` chain of `adev_from_qd` assigns. -/
lemma adevCoeff_isSome_of_supported {b : ℝ} (tau0 tau : ℝ)
    (hb : b ∈ ({0, -1, -2, -3, -4} : Set ℝ)) :
    (adevCoeff b tau0 tau).isSome := by
  simp only [Set.mem_insert_iff, Set.mem_singleton_iff] at hb
  rcases hb with rfl | rfl | rfl | rfl | rfl <;> norm_num [adevCoeff]

/-- On every supported slope the `coeff` chain of `mdev_from_qd` assigns. -/
lemma mdevCoeff_isSome_of_supported {b : ℝ} (tau0 tau : ℝ)
    (hb : b ∈ ({0, -1, -2, -3, -4} : Set ℝ)) :
    (mdevCoeff b tau0 tau).isSome := by
  simp only [Set.mem_insert_iff, Set.mem_singleton_iff] at hb
  rcases hb with rfl | rfl | rfl | rfl | rfl <;> norm_num [mdevCoeff]

/-- C9: for `Qd ≥ 0`, `tau0 > 0`, `tau ≥ tau0` and a supported slope, the
argument of the final square root in `adev_from_qd` and `mdev_from_qd` is
non-negative, and both converters return a non-negative real. -/
theorem sqrt_argument_nonneg (qd b tau0 tau : ℝ) (hqd : 0 ≤ qd) (htau0 : 0 < tau0)
    (htau : tau0 ≤ tau) (hb : b ∈ ({0, -1, -2, -3, -4} : Set ℝ)) :
    ∃ ca cm, adevCoeff b tau0 tau = some ca ∧ mdevCoeff b tau0 tau = some cm ∧
      0 ≤ ca * phase_psd_from_qd qd b tau0 * (2 * π) ^ 2 ∧
      0 ≤ cm * phase_psd_from_qd qd b tau0 * (2 * π) ^ 2 ∧
      adev_from_qd qd b tau0 tau =
        .ok (Real.sqrt (ca * phase_psd_from_qd qd b tau0 * (2 * π) ^ 2)) ∧
      mdev_from_qd qd b tau0 tau =
        .ok (Real.sqrt (cm * phase_psd_from_qd qd b tau0 * (2 * π) ^ 2)) ∧
      0 ≤ Real.sqrt (ca * phase_psd_from_qd qd b tau0 * (2 * π) ^ 2) ∧
      0 ≤ Real.sqrt (cm * phase_psd_from_qd qd b tau0 * (2 * π) ^ 2) := by
  obtain ⟨ca, hca⟩ := Option.isSome_iff_exists.mp (adevCoeff_isSome_of_supported tau0 tau hb)
  obtain ⟨cm, hcm⟩ := Option.isSome_iff_exists.mp (mdevCoeff_isSome_of_supported tau0 tau hb)
  have hg := phase_psd_nonneg qd b tau0 hqd htau0
  have hca0 := adevCoeff_nonneg htau0 htau hca
  have hcm0 := mdevCoeff_nonneg htau0 hcm
  have hsq : (0 : ℝ) ≤ (2 * π) ^ 2 := by positivity
  refine ⟨ca, cm, hca, hcm,
    mul_nonneg (mul_nonneg hca0 hg) hsq,
    mul_nonneg (mul_nonneg hcm0 hg) hsq, ?_, ?_,
    Real.sqrt_nonneg _, Real.sqrt_nonneg _⟩
  · simp [adev_from_qd, hca]
  · simp [mdev_from_qd, hcm]

/-- Witness for C9 at `qd = 1`, `b = -1`, `tau0 = 1`, `tau = 2`. -/
theorem sqrt_argument_nonneg_witness :
    ∃ ca cm, adevCoeff (-1) 1 2 = some ca ∧ mdevCoeff (-1) 1 2 = some cm ∧
      0 ≤ ca * phase_psd_from_qd 1 (-1) 1 * (2 * π) ^ 2 ∧
      0 ≤ cm * phase_psd_from_qd 1 (-1) 1 * (2 * π) ^ 2 ∧
      adev_from_qd 1 (-1) 1 2 =
        .ok (Real.sqrt (ca * phase_psd_from_qd 1 (-1) 1 * (2 * π) ^ 2)) ∧
      mdev_from_qd 1 (-1) 1 2 =
        .ok (Real.sqrt (cm * phase_psd_from_qd 1 (-1) 1 * (2 * π) ^ 2)) ∧
      0 ≤ Real.sqrt (ca * phase_psd_from_qd 1 (-1) 1 * (2 * π) ^ 2) ∧
      0 ≤ Real.sqrt (cm * phase_psd_from_qd 1 (-1) 1 * (2 * π) ^ 2) :=
  sqrt_argument_nonneg 1 (-1) 1 2 (by norm_num) (by norm_num) (by norm_num)
    (by norm_num [Set.mem_insert_iff, Set.mem_singleton_iff])

/-- Reading the coefficient buffer at an in-range index. -/
lemma hfbList_getD {nr k : ℕ} (b : ℝ) (hk : k < 2 * nr) :
    (hfbList nr b).getD k 0 = hfbVal nr b k := by
  simp [hfbList, List.getD_eq_getElem?_getD, List.getElem?_map, List.getElem?_range, hk]

/-- C5: in `noiseGen`, the coefficient buffer built before the transforms has
length `2*nr`; entry 0 is `1.0`; entry `k` for `1 ≤ k ≤ nr-1` is the cumulative
product of `(h + j)/(j + 1)` for `j = 0 … k-1` with `h = -b/2`; and entries
`nr … 2*nr-1` are zero. -/
theorem hfb_coefficients (nr : ℕ) (b : ℝ) (hnr : ∃ m, nr = 2 ^ m) :
    (hfbList nr b).length = 2 * nr ∧
    (hfbList nr b).getD 0 0 = 1 ∧
    (∀ k, 1 ≤ k → k < nr →
      (hfbList nr b).getD k 0 = ∏ j ∈ Finset.range k, ((-b / 2 + j) / (j + 1))) ∧
    (∀ k, nr ≤ k → k < 2 * nr → (hfbList nr b).getD k 0 = 0) := by
  obtain ⟨m, rfl⟩ := hnr
  have hpos : 0 < 2 ^ m := Nat.pos_pow_of_pos m (by norm_num)
  refine ⟨by simp [hfbList], ?_, ?_, ?_⟩
  · rw [hfbList_getD b (by omega)]
    unfold hfbVal
    rw [if_pos hpos]
    simp [hfbInit]
  · intro k hk1 hk
    rw [hfbList_getD b (by omega)]
    unfold hfbVal
    rw [if_pos hk]
    rw [Finset.prod_range_succ' (hfbInit (2 ^ m) b) k]
    have h0 : hfbInit (2 ^ m) b 0 = 1 := by simp [hfbInit]
    rw [h0, mul_one]
    refine Finset.prod_congr rfl ?_
    intro t ht
    have htk : t < k := Finset.mem_range.mp ht
    unfold hfbInit mhb
    rw [if_neg (by omega), if_pos (by omega)]
    simp [Nat.add_sub_cancel]
  · intro k hk1 hk2
    rw [hfbList_getD b hk2]
    unfold hfbVal hfbInit
    rw [if_neg (by omega), if_neg (by omega), if_neg (by omega)]

/-- Witness for C5 at `nr = 2`, `b = -2`, checking entries 0, 1 and 2. -/
theorem hfb_coefficients_witness :
    (hfbList 2 (-2)).length = 2 * 2 ∧
    (hfbList 2 (-2)).getD 0 0 = 1 ∧
    (hfbList 2 (-2)).getD 1 0 = ∏ j ∈ Finset.range 1, ((-(-2 : ℝ) / 2 + j) / (j + 1)) ∧
    (hfbList 2 (-2)).getD 2 0 = 0 :=
  ⟨(hfb_coefficients 2 (-2) ⟨1, rfl⟩).1,
   (hfb_coefficients 2 (-2) ⟨1, rfl⟩).2.1,
   (hfb_coefficients 2 (-2) ⟨1, rfl⟩).2.2.1 1 (by norm_num) (by norm_num),
   (hfb_coefficients 2 (-2) ⟨1, rfl⟩).2.2.2 2 (by norm_num) (by norm_num)⟩

/-- NaN absorbs on the left of `nadd`. -/
lemma nadd_none_left (y : Option ℝ) : nadd none y = none := by
  cases y <;> rfl

/-- NaN absorbs on the right of `nadd`. -/
lemma nadd_none_right (x : Option ℝ) : nadd x none = none := by
  cases x <;> rfl

/-- NaN absorbs on the left of `nmul`. -/
lemma nmul_none_left (y : Option ℝ) : nmul none y = none := by
  cases y <;> rfl

/-- A NaN-propagating sum with one NaN term is NaN. -/
lemma foldr_nadd_none {g : ℕ → Option ℝ} {L : List ℕ} {init : Option ℝ} {i : ℕ}
    (hiL : i ∈ L) (hgi : g i = none) :
    L.foldr (fun j acc => nadd (g j) acc) init = none := by
  induction L with
  | nil => cases hiL
  | cons a L ih =>
    rcases List.mem_cons.mp hiL with rfl | hmem
    · rw [List.foldr_cons, hgi, nadd_none_left]
    · rw [List.foldr_cons, ih hmem, nadd_none_right]

/-- C7 counterexample: at `nr = 2`, `Qd = -1`, `b = -2`, `noiseGen` does not
fail with `domainError`; it returns a sequence (`np.sqrt` of the negative
variance only yields NaN). -/
theorem noiseGen_negative_qd_counterexample :
    (noiseGen 2 (-1) (-2) (fun i => 0)).isOk = true ∧
    noiseGen 2 (-1) (-2) (fun i => 0) ≠ .error CnError.domainError := by
  constructor
  · rfl
  · intro h
    simp [noiseGen] at h

/-- C7 amended: for every `nr`, `b` and white-noise oracle, if `Qd < 0` then
`noiseGen` still returns (`.ok`) a sequence of length `nr`, every entry of
which is NaN. -/
theorem noiseGen_negative_qd_returns_nan (nr : ℕ) (Qd b : ℝ) (z : ℕ → ℝ)
    (hQd : Qd < 0) :
    ∃ l, noiseGen nr Qd b z = .ok l ∧ l.length = nr ∧ ∀ x ∈ l, x = none := by
  refine ⟨_, rfl, by simp [noiseGen], ?_⟩
  intro x hx
  simp only [noiseGen, List.mem_map, List.mem_range] at hx
  obtain ⟨k, hk, rfl⟩ := hx
  have hsig : npSqrt Qd = none := by
    unfold npSqrt
    rw [if_neg (not_le.mpr hQd)]
  unfold circConv
  refine foldr_nadd_none (i := 0) (List.mem_range.mpr (by omega)) ?_
  simp only []
  rw [if_pos (by omega : 0 < nr), hsig, nmul_none_left, nmul_none_left]

/-- Witness for the amended C7 at `nr = 2`, `Qd = -1`, `b = -2`. -/
theorem noiseGen_negative_qd_returns_nan_witness :
    ∃ l, noiseGen 2 (-1) (-2) (fun i => 0) = .ok l ∧ l.length = 2 ∧ ∀ x ∈ l, x = none :=
  noiseGen_negative_qd_returns_nan 2 (-1) (-2) (fun i => 0) (by norm_num)

end Colorednoise
